import Mathlib

/-!
# Verification of the grid-slicer and ZIP-builder core of `SlicerPage.tsx`

Shallow embedding of the pure computational core of
`src/pages/SlicerPage.tsx`: the grid-slicing geometry
(`clampValue`, `buildEvenSplits`, `buildStops`, `buildFractions`,
`getMinGap`, the breakpoint updaters, the rectangle loop of
`performSlice`) and the client-side ZIP archive builder
(`getCrcTable`, `crc32`, `toDosDate`, `buildZipBlob`).

Modelling conventions:
* JavaScript `number` values in fractional positions are modelled as
  exact rationals (`ℚ`); pixel coordinates are integers (`ℤ`); byte
  values, lengths and bit-patterns are `Nat`.
* `Math.round` is `⌊x + 1/2⌋` (JavaScript rounds half toward +∞).
* 32-bit bitwise operations (`^`, `&`, `>>>`) act on `Nat` values that
  stay below `2^32`; where JavaScript applies a ToUint32 / ToUint16
  conversion on a possibly larger value we take `% 2^32` / `% 2^16`
  explicitly.
* Byte buffers (`Uint8Array`, `TextEncoder` output) are `List Nat`.
* The ambient `new Date()` read inside `buildZipBlob` is passed as an
  explicit argument (already encoded DOS time/date fields), making the
  dependence on the clock visible.
* `performSlice` loops `for (row = 0; row < gridRowCount; row++)` and
  reads `rowSizes[row]`; in the application `rowSizes.length` always
  equals `gridRowCount` (both derive from the same stops array), so the
  loop is embedded as structural recursion on the size list, the
  singleton case being the final row whose far edge is forced.
-/

namespace Slicer

/-- JavaScript `Math.round`: round half toward +∞. -/
def jsRound (q : ℚ) : ℤ := ⌊q + 1/2⌋

/-- `clampValue(value, min, max)` from `SlicerPage.tsx`:
`Math.min(Math.max(value, min), max)`. -/
def clampValue (value lo hi : ℚ) : ℚ := min (max value lo) hi

/-- `buildEvenSplits(count)`: for `count ≤ 1` no splits, otherwise the
`count − 1` even breakpoints `(i+1)/count`.  (`Array.from({length})`
truncates a fractional length.) -/
def buildEvenSplits (count : ℚ) : List ℚ :=
  if count ≤ 1 then []
  else (List.range ⌊count - 1⌋.toNat).map (fun i : ℕ => ((i : ℚ) + 1) / count)

/-- `buildStops(count, splits)`:
`[0, ...splits.slice(0, count−1).map(v => clampValue(v, 0, 1)), 1]`;
for `count ≤ 1` exactly `[0, 1]`. -/
def buildStops (count : ℚ) (splits : List ℚ) : List ℚ :=
  if count ≤ 1 then [0, 1]
  else 0 :: (splits.take ⌊count - 1⌋.toNat).map (fun v => clampValue v 0 1) ++ [1]

/-- `buildFractions(stops)`: consecutive differences of the stops,
clamped below at 0 (`Math.max(0, stop - stops[index])`). -/
def buildFractions (stops : List ℚ) : List ℚ :=
  (stops.tail.zip stops).map (fun p => max 0 (p.1 - p.2))

/-- `getMinGap(count) = Math.min(0.05, 0.6 / Math.max(count, 1))`. -/
def getMinGap (count : ℚ) : ℚ := min (5/100) (6/10 / max count 1)

/-- The common body of `updateRowSplit` / `updateColSplit`: on the
current splits array `prev` (empty arrays are returned unchanged),
entry `index` is replaced by `value` clamped into
`[lowerBound + minGap, upperBound − minGap]`, where `lowerBound` is the
previous entry (0 at the left end) and `upperBound` the next entry
(1 at the right end).  `count` is the axis grid count
(`customRows` / `customCols`). -/
def updateSplit (count : ℚ) (index : ℕ) (value : ℚ) (prev : List ℚ) : List ℚ :=
  if prev.length = 0 then prev
  else
    let minGap := getMinGap count
    let lowerBound : ℚ := if index = 0 then 0 else prev.getD (index - 1) 0
    let upperBound : ℚ := if index = prev.length - 1 then 1 else prev.getD (index + 1) 0
    prev.set index (clampValue value (lowerBound + minGap) (upperBound - minGap))

/-- The common body of `updateCustomRows` / `updateCustomCols`.  The
raw argument is a JavaScript `number` (`Number.parseInt` at the call
sites): `none` stands for a non-finite value (NaN/±∞), which
`Number.isFinite` replaces by 1; the result is clamped into
`[1, MAX_CUSTOM_GRID] = [1, 8]` and the axis splits are reset to the
even default for the new count. -/
def updateCustomRows (value : Option ℚ) : ℚ × List ℚ :=
  let safeValue := value.getD 1
  let next := clampValue safeValue 1 8
  (next, buildEvenSplits next)

/-- One crop rectangle produced by `performSlice`:
`{row, col, x, y, width, height}` in pixels. -/
structure Rect where
  row : ℕ
  col : ℕ
  x : ℤ
  y : ℤ
  width : ℤ
  height : ℤ
deriving DecidableEq

/-- One axis of the `performSlice` loop.  With accumulator `y`, each
step takes `start = Math.round(y)` and
`next = Math.round(y + sizes[row])` — except the final row, where
`next` is forced to `dim` — emits the segment
`(start, Math.max(1, next - start))` and continues with `y = next`. -/
def sliceAxisGo (dim : ℤ) : List ℚ → ℚ → List (ℤ × ℤ)
  | [], _ => []
  | [_], y =>
      let start := jsRound y
      [(start, max 1 (dim - start))]
  | s :: s' :: rest, y =>
      let start := jsRound y
      let next := jsRound (y + s)
      (start, max 1 (next - start)) :: sliceAxisGo dim (s' :: rest) (next : ℚ)

/-- The rectangles produced by `performSlice`: rows outer, columns
inner; the column walk restarts at `x = 0` in every row, so it is the
same segment list for each row. -/
def performSliceRects (width height : ℤ) (rowSizes colSizes : List ℚ) : List Rect :=
  (sliceAxisGo height rowSizes 0).enum.flatMap (fun rseg =>
    (sliceAxisGo width colSizes 0).enum.map (fun cseg =>
      ⟨rseg.1, cseg.1, cseg.2.1, rseg.2.1, cseg.2.2, rseg.2.2⟩))

/-- The full slicing pipeline of `performSlice`: row/column sizes are
`fraction * imageDimension` over the stops derived from the grid counts
and breakpoints. -/
def rectsFor (rows cols : ℚ) (rowSplits colSplits : List ℚ) (width height : ℤ) : List Rect :=
  performSliceRects width height
    ((buildFractions (buildStops rows rowSplits)).map (fun f => f * (height : ℚ)))
    ((buildFractions (buildStops cols colSplits)).map (fun f => f * (width : ℚ)))

/-- The integer boundaries reached by one axis of the `performSlice`
loop: the rounded accumulator before each row, and finally the forced
far edge `dim`. -/
def axisBounds (dim : ℤ) : List ℚ → ℚ → List ℤ
  | [], _ => []
  | [_], y => [jsRound y, dim]
  | s :: s' :: rest, y => jsRound y :: axisBounds dim (s' :: rest) ((jsRound (y + s) : ℤ) : ℚ)

/-- Segments spanned by consecutive entries of a boundary list. -/
def segsOfBounds : List ℤ → List (ℤ × ℤ)
  | a :: b :: rest => (a, b - a) :: segsOfBounds (b :: rest)
  | _ => []

/-- Modelled from the spec's words for the accumulator strategy of
§4.1 / claim C4: the rectangle's near edge is `round(y)`, the far edge
is `round(y + size)` (final row forced to `dim`), and `y` then
"advances by the *unrounded* increment", i.e. `y := y + size` instead
of the code's `y := next`. -/
def sliceAxisSpecGo (dim : ℤ) : List ℚ → ℚ → List (ℤ × ℤ)
  | [], _ => []
  | [_], y =>
      let start := jsRound y
      [(start, max 1 (dim - start))]
  | s :: s' :: rest, y =>
      let start := jsRound y
      let next := jsRound (y + s)
      (start, max 1 (next - start)) :: sliceAxisSpecGo dim (s' :: rest) (y + s)

/-- Integer-accumulator reformulation of `sliceAxisGo`: every boundary
is an integer and each row starts exactly where the previous rounded
boundary ended (`b' = round(b + size)`), the final far edge being
forced to `dim`. -/
def sliceAxisInt (dim : ℤ) : List ℚ → ℤ → List (ℤ × ℤ)
  | [], _ => []
  | [_], b => [(b, max 1 (dim - b))]
  | s :: s' :: rest, b =>
      let b' := jsRound ((b : ℚ) + s)
      (b, max 1 (b' - b)) :: sliceAxisInt dim (s' :: rest) b'

/-- Pixel `(px, py)` lies inside rectangle `r`. -/
def rectContains (r : Rect) (px py : ℤ) : Prop :=
  r.x ≤ px ∧ px < r.x + r.width ∧ r.y ≤ py ∧ py < r.y + r.height

instance (r : Rect) (px py : ℤ) : Decidable (rectContains r px py) := by
  unfold rectContains; infer_instance

/-- How many of the rectangles contain pixel `(px, py)`. -/
def pixelCount (rects : List Rect) (px py : ℤ) : ℕ :=
  rects.countP (fun r => decide (rectContains r px py))

/-- Rectangle `r` is a non-degenerate rectangle lying inside the
`[0, W) × [0, H)` pixel space. -/
def rectInBounds (W H : ℤ) (r : Rect) : Prop :=
  0 ≤ r.x ∧ r.x + r.width ≤ W ∧ 0 ≤ r.y ∧ r.y + r.height ≤ H ∧
    1 ≤ r.width ∧ 1 ≤ r.height

/-- The rectangles exactly partition the `[0, W) × [0, H)` pixel
space: every pixel of the space lies in exactly one rectangle, and
every rectangle is a positive-size rectangle inside the space (so
there is no gap, no overlap, and nothing sticking out). -/
def exactPartition (W H : ℤ) (rects : List Rect) : Prop :=
  (∀ px py : ℤ, 0 ≤ px → px < W → 0 ≤ py → py < H → pixelCount rects px py = 1) ∧
    ∀ r ∈ rects, rectInBounds W H r

/-- A breakpoint array is valid for axis count `n` when consecutive
stops (breakpoints extended with 0 and 1) are separated by at least the
minimum gap. -/
def validSplits (n : ℚ) (splits : List ℚ) : Prop :=
  List.Chain' (fun a b => a + getMinGap n ≤ b) (0 :: splits ++ [1])

/-- `gapsFrom g prev splits`: starting after the stop `prev`, each
further breakpoint keeps a gap of at least `g` from its predecessor,
and the last one keeps a gap of at least `g` from the final stop 1. -/
def gapsFrom (g : ℚ) : ℚ → List ℚ → Prop
  | prev, [] => prev + g ≤ 1
  | prev, x :: rest => prev + g ≤ x ∧ gapsFrom g x rest

/-- Structural-recursion reformulation of `updateSplit`: `lo` is the
stop just left of the part of the array still being walked. -/
def updateSplitAux (g : ℚ) : ℚ → List ℚ → ℕ → ℚ → List ℚ
  | _, [], _, _ => []
  | lo, [_], 0, v => [clampValue v (lo + g) (1 - g)]
  | lo, _ :: s' :: rest, 0, v => clampValue v (lo + g) (s' - g) :: s' :: rest
  | _, s :: rest, j + 1, v => s :: updateSplitAux g s rest j v

end Slicer

namespace Zip

/-- One step of the CRC-32 table loop:
`c = (c & 1) ? (0xedb88320 ^ (c >>> 1)) : (c >>> 1)`. -/
def crcStep (c : Nat) : Nat :=
  if c % 2 = 1 then Nat.xor 0xedb88320 (c / 2) else c / 2

/-- `getCrcTable()`: the 256-entry table; entry `i` applies `crcStep`
eight times to `i` (the inner `for k` loop), stored with `>>> 0` (the
identity here, the value being below `2^32` already). -/
def getCrcTable : List Nat :=
  (List.range 256).map (fun i => (List.range 8).foldl (fun c _ => crcStep c) i)

/-- `crc32(data)`: seed `0xffffffff`, fold each byte through the table
via `crc = (crc >>> 8) ^ table[(crc ^ byte) & 0xff]`, and XOR the
final value with `0xffffffff` (the `>>> 0` masks to an unsigned 32-bit
value). -/
def crc32 (data : List Nat) : Nat :=
  let table := getCrcTable
  Nat.xor
    (data.foldl
      (fun crc b => Nat.xor (crc / 2 ^ 8) (table.getD (Nat.land (Nat.xor crc b) 0xff) 0))
      0xffffffff)
    0xffffffff

/-- `DataView.setUint16(_, v, true)`: the two bytes of `v mod 2^16`,
little-endian. -/
def u16le (v : Nat) : List Nat := [v % 256, v / 256 % 256]

/-- `DataView.setUint32(_, v, true)`: the four bytes of `v mod 2^32`,
little-endian. -/
def u32le (v : Nat) : List Nat :=
  [v % 256, v / 256 % 256, v / 65536 % 256, v / 16777216 % 256]

/-- Little-endian 16-bit read at position `pos` (missing bytes read
as 0). -/
def readU16le (bs : List Nat) (pos : ℕ) : ℕ :=
  bs.getD pos 0 + 256 * bs.getD (pos + 1) 0

/-- Little-endian 32-bit read at position `pos` (missing bytes read
as 0). -/
def readU32le (bs : List Nat) (pos : ℕ) : ℕ :=
  bs.getD pos 0 + 256 * bs.getD (pos + 1) 0 + 65536 * bs.getD (pos + 2) 0 +
    16777216 * bs.getD (pos + 3) 0

/-- The fields of a JavaScript `Date` that `toDosDate` reads
(`getMonth()` is 0-based). -/
structure JsDate where
  year : ℕ
  monthIndex : ℕ
  day : ℕ
  hours : ℕ
  minutes : ℕ
  seconds : ℕ

/-- `toDosDate(date)`:
`dosTime = (hours << 11) | (minutes << 5) | (seconds / 2)` and
`dosDate = ((max(1980, year) − 1980) << 9) | ((month + 1) << 5) | day`.
For in-range calendar fields the shifted fields are disjoint, so the
bitwise ORs are sums. -/
def toDosDate (date : JsDate) : ℕ × ℕ :=
  let year := max 1980 date.year
  let month := date.monthIndex + 1
  let seconds := date.seconds / 2
  (date.hours * 2 ^ 11 + date.minutes * 2 ^ 5 + seconds,
    (year - 1980) * 2 ^ 9 + month * 2 ^ 5 + date.day)

/-- A `{name, data}` pair handed to `buildZipBlob`; `name` is the
`TextEncoder` byte encoding of the filename. -/
structure ZipFileEntry where
  name : List Nat
  data : List Nat
deriving DecidableEq, Inhabited

/-- The 30-byte local file header written for one entry
(`localView.setUint…` calls at byte offsets 0–28). -/
def localHeaderBytes (dosTime dosDate crc size nameLen : ℕ) : List Nat :=
  u32le 0x04034b50 ++ u16le 20 ++ u16le 0 ++ u16le 0 ++ u16le dosTime ++ u16le dosDate ++
    u32le crc ++ u32le size ++ u32le size ++ u16le nameLen ++ u16le 0

/-- The 46-byte central directory header written for one entry
(`centralView.setUint…` calls at byte offsets 0–42); `offset` is the
running local-header offset recorded at byte 42. -/
def centralHeaderBytes (dosTime dosDate crc size nameLen offset : ℕ) : List Nat :=
  u32le 0x02014b50 ++ u16le 20 ++ u16le 20 ++ u16le 0 ++ u16le 0 ++ u16le dosTime ++
    u16le dosDate ++ u32le crc ++ u32le size ++ u32le size ++ u16le nameLen ++ u16le 0 ++
    u16le 0 ++ u16le 0 ++ u16le 0 ++ u32le 0 ++ u32le offset

/-- The 22-byte end-of-central-directory record (`endView.setUint…`):
signature, disk numbers 0, entry count twice, central directory size,
central directory start offset, comment length 0. -/
def eocdBytes (count centralSize offset : ℕ) : List Nat :=
  u32le 0x06054b50 ++ u16le 0 ++ u16le 0 ++ u16le count ++ u16le count ++
    u32le centralSize ++ u32le offset ++ u16le 0

/-- The `files.forEach` loop of `buildZipBlob`: accumulates the
concatenated local parts, the concatenated central parts, and the
running offset (`offset += localHeader.length + nameBytes.length +
size` after each entry). -/
def buildZipLoop (t d : ℕ) : List ZipFileEntry → ℕ → List Nat × List Nat × ℕ
  | [], offset => ([], [], offset)
  | f :: rest, offset =>
      let nameBytes := f.name
      let size := f.data.length
      let crc := crc32 f.data
      let lh := localHeaderBytes t d crc size nameBytes.length
      let ch := centralHeaderBytes t d crc size nameBytes.length offset
      let r := buildZipLoop t d rest (offset + lh.length + nameBytes.length + size)
      (lh ++ nameBytes ++ f.data ++ r.1, ch ++ nameBytes ++ r.2.1, r.2.2)

/-- `buildZipBlob(files)` as the byte sequence of the produced blob:
all local parts, then all central parts, then the end record built
from the entry count, the total central size and the final offset.
`t`/`d` are the DOS time/date fields of the single `toDosDate(new
Date())` captured at the start of the call. -/
def buildZipBlob (t d : ℕ) (files : List ZipFileEntry) : List Nat :=
  let r := buildZipLoop t d files 0
  r.1 ++ r.2.1 ++ eocdBytes files.length r.2.1.length r.2.2

/-- Byte offset at which entry `i`'s local header begins: the sum of
`30 + nameLen + contentLen` over the preceding entries. -/
def localEntryStart (files : List ZipFileEntry) (i : ℕ) : ℕ :=
  ((files.take i).map (fun f => 30 + f.name.length + f.data.length)).sum

/-- Byte offset, within the central directory region, at which entry
`i`'s central record begins: the sum of `46 + nameLen` over the
preceding entries. -/
def centralRecordStart (files : List ZipFileEntry) (i : ℕ) : ℕ :=
  ((files.take i).map (fun f => 46 + f.name.length)).sum

/-- The local region described by the spec: the concatenation, in
input order, of (local header, name bytes, content bytes) per entry. -/
def localRegion (t d : ℕ) (files : List ZipFileEntry) : List Nat :=
  (files.map (fun f =>
    localHeaderBytes t d (crc32 f.data) f.data.length f.name.length ++ f.name ++ f.data)).flatten

/-- The central region described by the spec: the concatenation, in
the same order, of (central header, name bytes) per entry, the header
of entry `i` recording the local-header offset `localEntryStart i`. -/
def centralRegion (t d : ℕ) (files : List ZipFileEntry) : List Nat :=
  ((List.range files.length).map (fun i =>
    centralHeaderBytes t d (crc32 (files.getD i default).data)
      (files.getD i default).data.length (files.getD i default).name.length
      (localEntryStart files i) ++ (files.getD i default).name)).flatten

/-- The module-level `crcTable` cache (`null` before first use) holds
the correct table and nothing else. -/
def crcCacheValid : Option (List Nat) → Prop
  | none => True
  | some tbl => tbl = getCrcTable

/-- State-passing `getCrcTable()`: return the cached table if present,
otherwise compute the 256-entry table, store it in the cache and
return it. -/
def getCrcTableS : Option (List Nat) → List Nat × Option (List Nat)
  | some tbl => (tbl, some tbl)
  | none => (getCrcTable, some getCrcTable)

/-- State-passing `crc32(data)`: reads the table through the cache. -/
def crc32S (data : List Nat) (s : Option (List Nat)) : ℕ × Option (List Nat) :=
  let r := getCrcTableS s
  (Nat.xor
    (data.foldl
      (fun crc b => Nat.xor (crc / 2 ^ 8) (r.1.getD (Nat.land (Nat.xor crc b) 0xff) 0))
      0xffffffff)
    0xffffffff, r.2)

/-- State-passing `files.forEach` loop of `buildZipBlob`, threading
the CRC-table cache through the per-entry `crc32` calls. -/
def buildZipLoopS (t d : ℕ) :
    List ZipFileEntry → ℕ → Option (List Nat) → (List Nat × List Nat × ℕ) × Option (List Nat)
  | [], offset, s => (([], [], offset), s)
  | f :: rest, offset, s =>
      let nameBytes := f.name
      let size := f.data.length
      let c := crc32S f.data s
      let lh := localHeaderBytes t d c.1 size nameBytes.length
      let ch := centralHeaderBytes t d c.1 size nameBytes.length offset
      let r := buildZipLoopS t d rest (offset + lh.length + nameBytes.length + size) c.2
      ((lh ++ nameBytes ++ f.data ++ r.1.1, ch ++ nameBytes ++ r.1.2.1, r.1.2.2), r.2)

/-- State-passing `buildZipBlob`: the produced bytes together with the
CRC-table cache state after the call. -/
def buildZipBlobS (t d : ℕ) (files : List ZipFileEntry) (s : Option (List Nat)) :
    List Nat × Option (List Nat) :=
  let r := buildZipLoopS t d files 0 s
  (r.1.1 ++ r.1.2.1 ++ eocdBytes files.length r.1.2.1.length r.1.2.2, r.2)

end Zip

/-! ## Helper lemmas -/

namespace Zip

theorem foldl_range_const {α : Type} (f : α → α) :
    ∀ (n : ℕ) (x : α), (List.range n).foldl (fun c _ => f c) x = f^[n] x := by
  intro n
  induction n with
  | zero => intro x; simp
  | succ n ih =>
      intro x
      simp [List.range_succ, List.foldl_append, ih, Function.iterate_succ_apply']

set_option maxRecDepth 4000 in
theorem crcTable_entries_lt : ∀ e ∈ getCrcTable, e < 2 ^ 32 := by decide

theorem crcTable_getD_lt (k : ℕ) : getCrcTable.getD k 0 < 2 ^ 32 := by
  rcases lt_or_ge k getCrcTable.length with hk | hk
  · rw [List.getD_eq_getElem _ _ hk]
    exact crcTable_entries_lt _ (List.getElem_mem hk)
  · rw [List.getD_eq_default _ _ hk]
    norm_num

theorem crc_fold_lt (data : List Nat) :
    ∀ crc : ℕ, crc < 2 ^ 32 →
      data.foldl
        (fun crc b => Nat.xor (crc / 2 ^ 8) (getCrcTable.getD (Nat.land (Nat.xor crc b) 0xff) 0))
        crc < 2 ^ 32 := by
  induction data with
  | nil => intro crc h; simpa using h
  | cons b rest ih =>
      intro crc h
      refine ih _ (Nat.xor_lt_two_pow ?_ (crcTable_getD_lt _))
      exact lt_of_le_of_lt (Nat.div_le_self _ _) h

end Zip

/-! ## Claim theorems: CRC-32 (C1) -/

/-- C1: the CRC-32 implementation is the standard reflected-polynomial
`0xEDB88320` table-driven algorithm: each table entry applies the step
`c ↦ (c & 1) ? 0xEDB88320 ^ (c >>> 1) : (c >>> 1)` eight times to its
index, `crc32` always returns an unsigned 32-bit value, and the two
standard vectors hold: `crc32 "123456789" = 0xCBF43926` and
`crc32 [] = 0`. -/
theorem crc32_standard_algorithm :
    Zip.getCrcTable = (List.range 256).map (fun i => Zip.crcStep^[8] i) ∧
    (∀ data : List Nat, Zip.crc32 data < 2 ^ 32) ∧
    Zip.crc32 [49, 50, 51, 52, 53, 54, 55, 56, 57] = 0xCBF43926 ∧
    Zip.crc32 [] = 0 := by
  refine ⟨?_, ?_, by decide, by decide⟩
  · unfold Zip.getCrcTable
    exact List.map_congr_left (fun i _ => Zip.foldl_range_const Zip.crcStep 8 i)
  · intro data
    unfold Zip.crc32
    exact Nat.xor_lt_two_pow (Zip.crc_fold_lt data _ (by norm_num)) (by norm_num)


/-! ## Claim theorems: stop/fraction derivation (C10) -/

/-- C10: `buildStops` is total and safe on arbitrary input — the
result starts with 0 and ends with 1, only the first `count − 1`
splits are used, and every stop is clamped into `[0, 1]`; and
`buildFractions` of any stops list contains only non-negative values
(negative differences are clamped to 0).  Both functions are plain
total functions, so no exception and no division by zero can occur. -/
theorem buildStops_buildFractions_total :
    (∀ (count : ℚ) (splits : List ℚ),
        (Slicer.buildStops count splits).head? = some 0 ∧
        (Slicer.buildStops count splits).getLast? = some 1 ∧
        Slicer.buildStops count splits =
          Slicer.buildStops count (splits.take ⌊count - 1⌋.toNat) ∧
        ∀ x ∈ Slicer.buildStops count splits, 0 ≤ x ∧ x ≤ 1) ∧
    ∀ stops : List ℚ, ∀ x ∈ Slicer.buildFractions stops, 0 ≤ x := by
  constructor
  · intro count splits
    by_cases hc : count ≤ 1
    · refine ⟨?_, ?_, ?_, ?_⟩
      · simp [Slicer.buildStops, if_pos hc]
      · simp [Slicer.buildStops, if_pos hc]
      · simp [Slicer.buildStops, if_pos hc]
      · intro x hx
        simp only [Slicer.buildStops, if_pos hc, List.mem_cons, List.mem_singleton] at hx
        rcases hx with rfl | rfl | h
        · norm_num
        · norm_num
        · exact absurd h (List.not_mem_nil x)
    · refine ⟨?_, ?_, ?_, ?_⟩
      · simp only [Slicer.buildStops, if_neg hc]
        rfl
      · simp only [Slicer.buildStops, if_neg hc, ← List.cons_append]
        exact List.getLast?_concat _
      · simp only [Slicer.buildStops, if_neg hc, List.take_take, min_self]
      · intro x hx
        simp only [Slicer.buildStops, if_neg hc] at hx
        rcases List.mem_cons.mp hx with rfl | h
        · norm_num
        · rcases List.mem_append.mp h with h | h
          · rcases List.mem_map.mp h with ⟨v, _, rfl⟩
            unfold Slicer.clampValue
            exact ⟨le_min (le_max_right v 0) (by norm_num), min_le_right _ _⟩
          · simp only [List.mem_singleton] at h
            simp [h]
  · intro stops x hx
    rcases List.mem_map.mp hx with ⟨p, _, rfl⟩
    exact le_max_left 0 _

/-- Witness for C10 at concrete inputs: `buildStops 3 [1/4, 3]`
evaluates to `[0, 1/4, 1, 1]` and its element `1/4` is in `[0, 1]`;
`buildFractions [1/3, 5/6] = [1/2]` and that fraction is
non-negative. -/
theorem buildStops_buildFractions_total_witness :
    (Slicer.buildStops 3 [1/4, 3]).head? = some 0 ∧
    ((0 : ℚ) ≤ 1/4 ∧ (1/4 : ℚ) ≤ 1) ∧
    (0 : ℚ) ≤ 1/2 :=
  ⟨(buildStops_buildFractions_total.1 3 [1/4, 3]).1,
   (buildStops_buildFractions_total.1 3 [1/4, 3]).2.2.2 (1/4) (by
      norm_num [Slicer.buildStops, Slicer.clampValue]
      rw [show List.take (Int.toNat 2) [(1:ℚ)/4, 1] = [1/4, 1] from rfl]
      simp),
   buildStops_buildFractions_total.2 [1/3, 5/6] (1/2) (by
      norm_num [Slicer.buildFractions])⟩


/-! ## Claim theorems: grid-count update safety (C8) -/

theorem buildEvenSplits_length (c : ℚ) (hc : 1 ≤ c) :
    (Slicer.buildEvenSplits c).length = ⌊c - 1⌋.toNat := by
  unfold Slicer.buildEvenSplits
  by_cases h : c ≤ 1
  · rw [if_pos h]
    have h0 : (⌊c - 1⌋ : ℤ) ≤ 0 := by
      calc ⌊c - 1⌋ ≤ ⌊(0 : ℚ)⌋ := Int.floor_le_floor (by linarith)
        _ = 0 := Int.floor_zero
    simp only [List.length_nil]
    omega
  · rw [if_neg h, List.length_map, List.length_range]

theorem buildEvenSplits_getD (c : ℚ) (i : ℕ) (hi : i < (Slicer.buildEvenSplits c).length) :
    (Slicer.buildEvenSplits c).getD i 0 = ((i : ℚ) + 1) / c := by
  unfold Slicer.buildEvenSplits at hi ⊢
  by_cases h : c ≤ 1
  · rw [if_pos h] at hi
    exact absurd hi (Nat.not_lt_zero i)
  · rw [if_neg h] at hi ⊢
    rw [List.getD_eq_getElem _ _ hi]
    simp

/-- C8: setting an axis's grid count never fails — for every raw input
(`none` standing for a non-finite number, which `Number.isFinite`
replaces by 1) the stored count is clamped into `[1, 8]` and the
breakpoints are reset to the even default `bᵢ = i/n` for the new
count; `buildStops` with `count ≤ 1` is exactly `[0, 1]` with no
breakpoint math; and a 1×1 grid yields exactly one full-image
rectangle. -/
theorem setGridSize_clamps_and_resets :
    (∀ v : Option ℚ,
        1 ≤ (Slicer.updateCustomRows v).1 ∧ (Slicer.updateCustomRows v).1 ≤ 8 ∧
        (Slicer.updateCustomRows v).2.length = ⌊(Slicer.updateCustomRows v).1 - 1⌋.toNat ∧
        ∀ i : ℕ, i < (Slicer.updateCustomRows v).2.length →
          (Slicer.updateCustomRows v).2.getD i 0 =
            ((i : ℚ) + 1) / (Slicer.updateCustomRows v).1) ∧
    (∀ (count : ℚ) (splits : List ℚ), count ≤ 1 → Slicer.buildStops count splits = [0, 1]) ∧
    ∀ (rowSplits colSplits : List ℚ) (W H : ℤ), 1 ≤ W → 1 ≤ H →
      Slicer.rectsFor 1 1 rowSplits colSplits W H = [⟨0, 0, 0, 0, W, H⟩] := by
  refine ⟨?_, ?_, ?_⟩
  · intro v
    have h1 : 1 ≤ (Slicer.updateCustomRows v).1 :=
      le_min (le_max_right _ _) (by norm_num)
    exact ⟨h1, min_le_right _ _, buildEvenSplits_length _ h1,
      fun i hi => buildEvenSplits_getD _ i hi⟩
  · intro count splits h
    simp [Slicer.buildStops, if_pos h]
  · intro rs cs W H hW hH
    have hW' : max (1 : ℤ) (W - 0) = W := by omega
    have hH' : max (1 : ℤ) (H - 0) = H := by omega
    simp only [Slicer.rectsFor, Slicer.performSliceRects, Slicer.buildStops,
      Slicer.buildFractions, Slicer.sliceAxisGo, Slicer.jsRound]
    norm_num [List.enum, hW', hH']
    exact ⟨hW, hH⟩

/-- Witness for C8 at concrete inputs: `updateCustomRows 99` clamps to
a count of at least 1, `buildStops 0 [5] = [0,1]`, and a 1×1 grid on a
5×7 image yields the single full-image rectangle. -/
theorem setGridSize_clamps_and_resets_witness :
    1 ≤ (Slicer.updateCustomRows (some 99)).1 ∧
    Slicer.buildStops 0 [5] = [0, 1] ∧
    Slicer.rectsFor 1 1 [] [] 5 7 = [⟨0, 0, 0, 0, 5, 7⟩] :=
  ⟨(setGridSize_clamps_and_resets.1 (some 99)).1,
   setGridSize_clamps_and_resets.2.1 0 [5] (by norm_num),
   setGridSize_clamps_and_resets.2.2 [] [] 5 7 (by norm_num) (by norm_num)⟩

/-! ## Claim theorems: rounding strategy of the slicing loop (C4) -/

theorem jsRound_intCast (b : ℤ) : Slicer.jsRound (b : ℚ) = b := by
  unfold Slicer.jsRound
  rw [Int.floor_int_add]
  norm_num

theorem sliceAxisGo_intCast (sizes : List ℚ) :
    ∀ (dim : ℤ) (b : ℤ), Slicer.sliceAxisGo dim sizes (b : ℚ) = Slicer.sliceAxisInt dim sizes b := by
  induction sizes with
  | nil => intro dim b; rfl
  | cons s rest ih =>
      intro dim b
      cases rest with
      | nil => simp [Slicer.sliceAxisGo, Slicer.sliceAxisInt, jsRound_intCast]
      | cons s' rest' =>
          simp only [Slicer.sliceAxisGo, Slicer.sliceAxisInt, jsRound_intCast, ih]

/-- C4 (amended): in the slicing loop each rectangle's near edge is
`round(y)` and its far edge is `round(y + rowFraction·imageHeight)` —
the final row's far edge forced to the image dimension — but the
accumulator `y` then advances **to the rounded boundary** (`y = nextY`
in the source), not by the unrounded increment: the loop is exactly
the integer-accumulator recursion `sliceAxisInt`, every boundary being
an integer and every row starting at the previous rounded boundary. -/
theorem slice_accumulator_snaps_to_rounded_boundary :
    ∀ (dim : ℤ) (sizes : List ℚ),
      Slicer.sliceAxisGo dim sizes 0 = Slicer.sliceAxisInt dim sizes 0 := by
  intro dim sizes
  have h := sliceAxisGo_intCast sizes dim 0
  simpa using h

/-- Counterexample to C4 as stated: for a 3-pixel axis split into 5
even rows (sizes `3/5` each), the loop of the source differs from the
procedure described by the claim (accumulator advanced by the
unrounded increment): the code yields segments starting at
`0,1,2,3,4`, the claimed procedure yields `0,1,1,2,2`. -/
theorem slice_accumulator_unrounded_counterexample :
    Slicer.sliceAxisGo 3
        ((Slicer.buildFractions (Slicer.buildStops 5 (Slicer.buildEvenSplits 5))).map
          (fun f => f * (3 : ℚ))) 0 ≠
      Slicer.sliceAxisSpecGo 3
        ((Slicer.buildFractions (Slicer.buildStops 5 (Slicer.buildEvenSplits 5))).map
          (fun f => f * (3 : ℚ))) 0 := by
  have hL : Slicer.sliceAxisGo 3
      ((Slicer.buildFractions (Slicer.buildStops 5 (Slicer.buildEvenSplits 5))).map
        (fun f => f * (3 : ℚ))) 0 = [(0,1),(1,1),(2,1),(3,1),(4,1)] := by
    norm_num [Slicer.sliceAxisGo, Slicer.buildFractions, Slicer.buildStops,
      Slicer.buildEvenSplits, Slicer.clampValue, Slicer.jsRound]
  have hR : Slicer.sliceAxisSpecGo 3
      ((Slicer.buildFractions (Slicer.buildStops 5 (Slicer.buildEvenSplits 5))).map
        (fun f => f * (3 : ℚ))) 0 = [(0,1),(1,1),(1,1),(2,1),(2,1)] := by
    norm_num [Slicer.sliceAxisSpecGo, Slicer.buildFractions, Slicer.buildStops,
      Slicer.buildEvenSplits, Slicer.clampValue, Slicer.jsRound]
  rw [hL, hR]
  decide

/-! ## Counterexamples to the universal tiling claims (C2, C5) -/

/-- Counterexample to C2 as stated: a valid configuration (2 rows, 1
column, even breakpoint `1/2`, positive 1×1 image) produces the two
rectangles `(0,0)–1×1` and `(0,1)–1×1`; the second lies outside the
`[0,1)×[0,1)` pixel space, so the rectangles do not exactly partition
it. -/
theorem grid_partition_counterexample :
    ¬ Slicer.exactPartition 1 1
        (Slicer.rectsFor 2 1 (Slicer.buildEvenSplits 2) (Slicer.buildEvenSplits 1) 1 1) := by
  have heval : Slicer.rectsFor 2 1 (Slicer.buildEvenSplits 2) (Slicer.buildEvenSplits 1) 1 1 =
      [⟨0, 0, 0, 0, 1, 1⟩, ⟨1, 0, 0, 1, 1, 1⟩] := by
    norm_num [Slicer.rectsFor, Slicer.performSliceRects, Slicer.buildFractions,
      Slicer.buildStops, Slicer.buildEvenSplits, Slicer.clampValue, Slicer.sliceAxisGo,
      Slicer.jsRound, List.enum]
  intro h
  have hmem : (⟨1, 0, 0, 1, 1, 1⟩ : Slicer.Rect) ∈
      Slicer.rectsFor 2 1 (Slicer.buildEvenSplits 2) (Slicer.buildEvenSplits 1) 1 1 := by
    rw [heval]; simp
  have hb := (h.2 _ hmem).2.2.2.1
  norm_num [Slicer.rectInBounds] at hb

/-- Counterexample to C5 as stated: with a 1-row, 2-column even split
of a 1×1 image, the rightmost column's rectangle is `(1,0)–1×1`, whose
right edge is `2`, not the image width `1` — the forced last edge
`nextX = width` is overridden by `Math.max(1, …)` when the preceding
rounded boundary has already reached the image width. -/
theorem last_edge_counterexample :
    ∃ r ∈ Slicer.rectsFor 1 2 (Slicer.buildEvenSplits 1) (Slicer.buildEvenSplits 2) 1 1,
      r.col = 1 ∧ r.x + r.width ≠ 1 := by
  have heval : Slicer.rectsFor 1 2 (Slicer.buildEvenSplits 1) (Slicer.buildEvenSplits 2) 1 1 =
      [⟨0, 0, 0, 0, 1, 1⟩, ⟨0, 1, 1, 0, 1, 1⟩] := by
    norm_num [Slicer.rectsFor, Slicer.performSliceRects, Slicer.buildFractions,
      Slicer.buildStops, Slicer.buildEvenSplits, Slicer.clampValue, Slicer.sliceAxisGo,
      Slicer.jsRound, List.enum]
  refine ⟨⟨0, 1, 1, 0, 1, 1⟩, ?_, rfl, by decide⟩
  rw [heval]
  simp

/-! ## Axis partition machinery for the tiling claims -/

namespace Slicer

theorem axisBounds_ne_nil (dim : ℤ) (sizes : List ℚ) (y : ℚ) (h : sizes ≠ []) :
    axisBounds dim sizes y ≠ [] := by
  cases sizes with
  | nil => exact absurd rfl h
  | cons s rest => cases rest <;> simp [axisBounds]

theorem axisBounds_head (dim : ℤ) (sizes : List ℚ) (y : ℚ) (h : sizes ≠ []) :
    (axisBounds dim sizes y).head? = some (jsRound y) := by
  cases sizes with
  | nil => exact absurd rfl h
  | cons s rest => cases rest <;> simp [axisBounds]

theorem axisBounds_getLast (dim : ℤ) :
    ∀ (sizes : List ℚ) (y : ℚ), sizes ≠ [] → (axisBounds dim sizes y).getLast? = some dim := by
  intro sizes
  induction sizes with
  | nil => intro y h; exact absurd rfl h
  | cons s rest ih =>
      intro y _
      cases rest with
      | nil => simp [axisBounds]
      | cons s' rest' =>
          have h2 := ih ((jsRound (y + s) : ℤ) : ℚ) (by simp)
          simp only [axisBounds]
          rw [List.getLast?_cons, h2]
          rfl

theorem chain_head_le_getLast :
    ∀ (c : List ℤ) (a : ℤ), List.Chain' (· < ·) (a :: c) → a ≤ (a :: c).getLast (by simp) := by
  intro c
  induction c with
  | nil => intro a _; simp
  | cons b c' ih =>
      intro a h
      rw [List.getLast_cons (by simp)]
      have hab : a < b := (List.chain'_cons.mp h).1
      exact le_trans (le_of_lt hab) (ih b (List.chain'_cons.mp h).2)

theorem segsOfBounds_bounds :
    ∀ (c : List ℤ) (lo hi : ℤ), List.Chain' (· < ·) c →
      c.head? = some lo → c.getLast? = some hi →
      ∀ seg ∈ segsOfBounds c, lo ≤ seg.1 ∧ seg.1 + seg.2 ≤ hi ∧ 1 ≤ seg.2 := by
  intro c
  induction c with
  | nil => intro lo hi _ h; simp at h
  | cons a c' ih =>
      intro lo hi hchain hhead hlast
      have hlo : a = lo := by simpa using hhead
      subst hlo
      cases c' with
      | nil => intro seg hseg; simp [segsOfBounds] at hseg
      | cons b c'' =>
          intro seg hseg
          have hab : a < b := (List.chain'_cons.mp hchain).1
          have hchain' : List.Chain' (· < ·) (b :: c'') := (List.chain'_cons.mp hchain).2
          have hlast' : (b :: c'').getLast? = some hi := by
            rwa [List.getLast?_cons_cons] at hlast
          rcases List.mem_cons.mp hseg with rfl | hmem
          · refine ⟨le_refl _, ?_, by omega⟩
            have hba : a + (b - a) = b := by ring
            rw [hba]
            have hble : b ≤ (b :: c'').getLast (by simp) := chain_head_le_getLast c'' b hchain'
            have h1 := List.getLast?_eq_getLast (b :: c'') (by simp)
            rw [hlast'] at h1
            have heq := Option.some.inj h1
            omega
          · have := ih b hi hchain' rfl hlast' seg hmem
            exact ⟨by omega, this.2.1, this.2.2⟩

theorem segsOfBounds_countP :
    ∀ (c : List ℤ) (lo hi t : ℤ), List.Chain' (· < ·) c →
      c.head? = some lo → c.getLast? = some hi → lo ≤ t → t < hi →
      (segsOfBounds c).countP (fun seg => decide (seg.1 ≤ t ∧ t < seg.1 + seg.2)) = 1 := by
  intro c
  induction c with
  | nil => intro lo hi t _ h; simp at h
  | cons a c' ih =>
      intro lo hi t hchain hhead hlast hlot hthi
      have hlo : a = lo := by simpa using hhead
      subst hlo
      cases c' with
      | nil =>
          have : a = hi := by simpa using hlast
          omega
      | cons b c'' =>
          have hab : a < b := (List.chain'_cons.mp hchain).1
          have hchain' : List.Chain' (· < ·) (b :: c'') := (List.chain'_cons.mp hchain).2
          have hlast' : (b :: c'').getLast? = some hi := by
            rwa [List.getLast?_cons_cons] at hlast
          simp only [segsOfBounds, List.countP_cons]
          by_cases htb : t < b
          · have hhd : (decide (a ≤ t ∧ t < a + (b - a))) = true := by
              simp only [decide_eq_true_eq]
              omega
            rw [hhd]
            have hzero : (segsOfBounds (b :: c'')).countP
                (fun seg => decide (seg.1 ≤ t ∧ t < seg.1 + seg.2)) = 0 := by
              rw [List.countP_eq_zero]
              intro seg hseg
              have hb := segsOfBounds_bounds (b :: c'') b hi hchain' rfl hlast' seg hseg
              simp only [decide_eq_true_eq]
              omega
            rw [hzero]
            simp
          · have hhd : (decide (a ≤ t ∧ t < a + (b - a))) = false := by
              simp only [decide_eq_false_iff_not]
              omega
            rw [hhd]
            have := ih b hi t hchain' rfl hlast' (by omega) hthi
            simpa using this

theorem sliceAxisGo_eq_segsOfBounds (dim : ℤ) :
    ∀ (sizes : List ℚ) (y : ℚ), List.Chain' (· < ·) (axisBounds dim sizes y) →
      sliceAxisGo dim sizes y = segsOfBounds (axisBounds dim sizes y) := by
  intro sizes
  induction sizes with
  | nil => intro y _; rfl
  | cons s rest ih =>
      intro y hchain
      cases rest with
      | nil =>
          simp only [axisBounds, segsOfBounds, sliceAxisGo] at hchain ⊢
          have h1 : jsRound y < dim := (List.chain'_cons.mp hchain).1
          rw [max_eq_right (by omega)]
      | cons s' rest' =>
          simp only [axisBounds] at hchain ⊢
          have hne : axisBounds dim (s' :: rest') ((jsRound (y + s) : ℤ) : ℚ) ≠ [] :=
            axisBounds_ne_nil dim _ _ (by simp)
          obtain ⟨b, B, hB⟩ := List.exists_cons_of_ne_nil hne
          have hhd := axisBounds_head dim (s' :: rest') ((jsRound (y + s) : ℤ) : ℚ) (by simp)
          rw [hB] at hhd
          have hb : b = jsRound (y + s) := by
            have hb0 : b = jsRound ((jsRound (y + s) : ℤ) : ℚ) := by simpa using hhd
            rw [hb0]
            unfold jsRound
            rw [Int.floor_int_add]
            norm_num
          rw [hB] at hchain ⊢
          subst hb
          have hlt : jsRound y < jsRound (y + s) := (List.chain'_cons.mp hchain).1
          have hchain' : List.Chain' (· < ·) (jsRound (y + s) :: B) :=
            (List.chain'_cons.mp hchain).2
          simp only [sliceAxisGo, segsOfBounds]
          rw [max_eq_right (by omega)]
          congr 1
          have := ih ((jsRound (y + s) : ℤ) : ℚ) (by rw [hB]; exact hchain')
          rw [hB] at this
          exact this

theorem countP_flatMap {α β : Type} (p : β → Bool) (g : α → List β) :
    ∀ l : List α, (l.flatMap g).countP p = (l.map (fun a => (g a).countP p)).sum := by
  intro l
  induction l with
  | nil => rfl
  | cons a l ih => simp [List.flatMap_cons, List.countP_append, ih]

theorem countP_enumFrom {α : Type} (pred : α → Bool) :
    ∀ (l : List α) (n : ℕ), (List.enumFrom n l).countP (fun q => pred q.2) = l.countP pred := by
  intro l
  induction l with
  | nil => intro n; rfl
  | cons a l ih => intro n; simp [List.enumFrom, List.countP_cons, ih]

theorem countP_product (rsegs csegs : List (ℤ × ℤ)) (px py : ℤ) :
    ∀ n : ℕ,
      ((List.enumFrom n rsegs).flatMap (fun rseg =>
        csegs.enum.map (fun cseg =>
          (⟨rseg.1, cseg.1, cseg.2.1, rseg.2.1, cseg.2.2, rseg.2.2⟩ : Rect)))).countP
            (fun r => decide (rectContains r px py)) =
      rsegs.countP (fun seg => decide (seg.1 ≤ py ∧ py < seg.1 + seg.2)) *
        csegs.countP (fun seg => decide (seg.1 ≤ px ∧ px < seg.1 + seg.2)) := by
  induction rsegs with
  | nil => intro n; simp
  | cons rseg rsegs ih =>
      intro n
      simp only [List.enumFrom, List.flatMap_cons, List.countP_append, ih, List.countP_cons]
      have hinner : (csegs.enum.map (fun cseg =>
          (⟨n, cseg.1, cseg.2.1, rseg.1, cseg.2.2, rseg.2⟩ : Rect))).countP
            (fun r => decide (rectContains r px py)) =
          (if (decide (rseg.1 ≤ py ∧ py < rseg.1 + rseg.2)) = true then
            csegs.countP (fun seg => decide (seg.1 ≤ px ∧ px < seg.1 + seg.2)) else 0) := by
        rw [List.countP_map]
        by_cases hrow : rseg.1 ≤ py ∧ py < rseg.1 + rseg.2
        · rw [if_pos (by simpa using hrow)]
          unfold List.enum
          rw [← countP_enumFrom (fun cseg => decide (cseg.1 ≤ px ∧ px < cseg.1 + cseg.2)) csegs 0]
          apply List.countP_congr
          intro q _
          simp [Function.comp, rectContains, hrow.1, hrow.2]
        · rw [if_neg (by simpa using hrow)]
          rw [List.countP_eq_zero]
          intro q _
          simp only [Function.comp, decide_eq_true_eq]
          unfold rectContains
          intro hc
          exact hrow ⟨hc.2.2.1, hc.2.2.2⟩
      rw [hinner]
      by_cases hrow : (decide (rseg.1 ≤ py ∧ py < rseg.1 + rseg.2)) = true
      · rw [if_pos hrow, if_pos hrow]
        ring
      · rw [if_neg hrow, if_neg hrow]
        ring

theorem jsRound_zero : jsRound 0 = 0 := by norm_num [jsRound]

theorem axis_countP_one (dim : ℤ) (sizes : List ℚ) (t : ℤ)
    (hne : sizes ≠ []) (hchain : List.Chain' (· < ·) (axisBounds dim sizes 0))
    (h0 : 0 ≤ t) (hdim : t < dim) :
    (sliceAxisGo dim sizes 0).countP (fun seg => decide (seg.1 ≤ t ∧ t < seg.1 + seg.2)) = 1 := by
  rw [sliceAxisGo_eq_segsOfBounds dim sizes 0 hchain]
  refine segsOfBounds_countP (axisBounds dim sizes 0) 0 dim t hchain ?_ ?_ h0 hdim
  · rw [axisBounds_head dim sizes 0 hne, jsRound_zero]
  · exact axisBounds_getLast dim sizes 0 hne

theorem axis_segs_bounds (dim : ℤ) (sizes : List ℚ)
    (hne : sizes ≠ []) (hchain : List.Chain' (· < ·) (axisBounds dim sizes 0)) :
    ∀ seg ∈ sliceAxisGo dim sizes 0, 0 ≤ seg.1 ∧ seg.1 + seg.2 ≤ dim ∧ 1 ≤ seg.2 := by
  rw [sliceAxisGo_eq_segsOfBounds dim sizes 0 hchain]
  refine segsOfBounds_bounds (axisBounds dim sizes 0) 0 dim hchain ?_ ?_
  · rw [axisBounds_head dim sizes 0 hne, jsRound_zero]
  · exact axisBounds_getLast dim sizes 0 hne

theorem exactPartition_performSliceRects (W H : ℤ) (rowSizes colSizes : List ℚ)
    (hrne : rowSizes ≠ []) (hcne : colSizes ≠ [])
    (hrchain : List.Chain' (· < ·) (axisBounds H rowSizes 0))
    (hcchain : List.Chain' (· < ·) (axisBounds W colSizes 0)) :
    exactPartition W H (performSliceRects W H rowSizes colSizes) := by
  constructor
  · intro px py hpx0 hpxW hpy0 hpyH
    unfold pixelCount performSliceRects
    show ((List.enumFrom 0 (sliceAxisGo H rowSizes 0)).flatMap _).countP _ = 1
    rw [countP_product (sliceAxisGo H rowSizes 0) (sliceAxisGo W colSizes 0) px py 0]
    rw [axis_countP_one H rowSizes py hrne hrchain hpy0 hpyH,
      axis_countP_one W colSizes px hcne hcchain hpx0 hpxW]
  · intro r hr
    unfold performSliceRects at hr
    rcases List.mem_flatMap.mp hr with ⟨rseg, hrseg, hr2⟩
    rcases List.mem_map.mp hr2 with ⟨cseg, hcseg, rfl⟩
    have hrmem : rseg.2 ∈ sliceAxisGo H rowSizes 0 := by
      have := List.mem_map_of_mem Prod.snd hrseg
      rwa [List.enum_map_snd] at this
    have hcmem : cseg.2 ∈ sliceAxisGo W colSizes 0 := by
      have := List.mem_map_of_mem Prod.snd hcseg
      rwa [List.enum_map_snd] at this
    have hrb := axis_segs_bounds H rowSizes hrne hrchain rseg.2 hrmem
    have hcb := axis_segs_bounds W colSizes hcne hcchain cseg.2 hcmem
    exact ⟨hcb.1, hcb.2.1, hrb.1, hrb.2.1, hcb.2.2, hrb.2.2⟩

theorem sizes_ne_nil (c : ℚ) (s : List ℚ) (f : ℚ → ℚ) :
    (buildFractions (buildStops c s)).map f ≠ [] := by
  have h2 : 2 ≤ (buildStops c s).length := by
    unfold buildStops
    by_cases hc : c ≤ 1
    · rw [if_pos hc]; simp
    · rw [if_neg hc]; simp
  have h1 : (buildFractions (buildStops c s)).length = (buildStops c s).length - 1 := by
    unfold buildFractions
    rw [List.length_map, List.length_zip, List.length_tail]
    omega
  apply List.ne_nil_of_length_pos
  rw [List.length_map, h1]
  omega

theorem segsOfBounds_last_edge :
    ∀ (c'' : List ℤ) (a b : ℤ),
      ((segsOfBounds (a :: b :: c'')).getLast?).map (fun seg => seg.1 + seg.2) =
        (a :: b :: c'').getLast? := by
  intro c''
  induction c'' with
  | nil => intro a b; simp [segsOfBounds]
  | cons d c''' ih =>
      intro a b
      rw [show segsOfBounds (a :: b :: d :: c''') =
          (a, b - a) :: (b, d - b) :: segsOfBounds (d :: c''') from rfl]
      rw [List.getLast?_cons_cons, List.getLast?_cons_cons]
      exact ih b d

end Slicer

/-! ## Claim theorems: tiling (C2) and last-edge exactness (C5) -/

/-- C2 (amended): for counts in `[1, 8]`, valid breakpoint sets and a
positive image, **provided** the rounded cumulative boundaries along
each axis are strictly increasing (from 0 up to the image dimension —
the extra hypothesis forced by the counterexample on images smaller
than the grid), the rectangles computed by the slicing loop exactly
partition the `[0, width) × [0, height)` pixel space: every pixel lies
in exactly one rectangle, nothing overlaps and nothing sticks out.
In the concrete 300×300 case with a 3×3 even split the result is 9
rectangles of 100×100 at the stated origins. -/
theorem grid_partition_of_monotone_bounds :
    (∀ (n m : ℚ) (rowSplits colSplits : List ℚ) (W H : ℤ),
        1 ≤ n → n ≤ 8 → 1 ≤ m → m ≤ 8 →
        Slicer.validSplits n rowSplits → Slicer.validSplits m colSplits →
        0 < W → 0 < H →
        List.Chain' (· < ·) (Slicer.axisBounds H
          ((Slicer.buildFractions (Slicer.buildStops n rowSplits)).map
            (fun f => f * (H : ℚ))) 0) →
        List.Chain' (· < ·) (Slicer.axisBounds W
          ((Slicer.buildFractions (Slicer.buildStops m colSplits)).map
            (fun f => f * (W : ℚ))) 0) →
        Slicer.exactPartition W H (Slicer.rectsFor n m rowSplits colSplits W H)) ∧
    Slicer.rectsFor 3 3 (Slicer.buildEvenSplits 3) (Slicer.buildEvenSplits 3) 300 300 =
      [⟨0, 0, 0, 0, 100, 100⟩, ⟨0, 1, 100, 0, 100, 100⟩, ⟨0, 2, 200, 0, 100, 100⟩,
       ⟨1, 0, 0, 100, 100, 100⟩, ⟨1, 1, 100, 100, 100, 100⟩, ⟨1, 2, 200, 100, 100, 100⟩,
       ⟨2, 0, 0, 200, 100, 100⟩, ⟨2, 1, 100, 200, 100, 100⟩, ⟨2, 2, 200, 200, 100, 100⟩] := by
  constructor
  · intro n m rowSplits colSplits W H _ _ _ _ _ _ _ _ hrchain hcchain
    exact Slicer.exactPartition_performSliceRects W H _ _
      (Slicer.sizes_ne_nil n rowSplits _) (Slicer.sizes_ne_nil m colSplits _)
      hrchain hcchain
  · norm_num [Slicer.rectsFor, Slicer.performSliceRects, Slicer.buildFractions,
      Slicer.buildStops, Slicer.buildEvenSplits, Slicer.clampValue, Slicer.sliceAxisGo,
      Slicer.jsRound, List.enum]

/-- Witness for C2 at a concrete input: the 2×2 even split of a 10×10
image satisfies every hypothesis (valid splits, strictly increasing
boundaries `0, 5, 10` on both axes) and therefore tiles exactly. -/
theorem grid_partition_of_monotone_bounds_witness :
    Slicer.exactPartition 10 10 (Slicer.rectsFor 2 2 [1/2] [1/2] 10 10) :=
  grid_partition_of_monotone_bounds.1 2 2 [1/2] [1/2] 10 10
    (by norm_num) (by norm_num) (by norm_num) (by norm_num)
    (by norm_num [Slicer.validSplits, Slicer.getMinGap, List.chain'_cons,
      List.chain'_singleton])
    (by norm_num [Slicer.validSplits, Slicer.getMinGap, List.chain'_cons,
      List.chain'_singleton])
    (by norm_num) (by norm_num)
    (by norm_num [Slicer.axisBounds, Slicer.jsRound, Slicer.buildFractions,
      Slicer.buildStops, Slicer.clampValue, List.chain'_cons, List.chain'_singleton])
    (by norm_num [Slicer.axisBounds, Slicer.jsRound, Slicer.buildFractions,
      Slicer.buildStops, Slicer.clampValue, List.chain'_cons, List.chain'_singleton])

/-- C5 (amended): **provided** the rounded cumulative boundaries of an
axis are strictly increasing (the hypothesis forced by the
counterexample on images smaller than the grid), the far edge of the
final slice along that axis equals the image dimension exactly —
the final boundary is forced to the dimension and is never truncated
by rounding.  In the concrete case of width 301 with a 3-column even
split the column widths are `100, 100, 101`. -/
theorem last_edge_exact_of_monotone_bounds :
    (∀ (dim : ℤ) (sizes : List ℚ), sizes ≠ [] →
        List.Chain' (· < ·) (Slicer.axisBounds dim sizes 0) →
        ((Slicer.sliceAxisGo dim sizes 0).getLast?).map (fun seg => seg.1 + seg.2) =
          some dim) ∧
    (Slicer.rectsFor 1 3 (Slicer.buildEvenSplits 1) (Slicer.buildEvenSplits 3) 301 1).map
        Slicer.Rect.width = [100, 100, 101] := by
  constructor
  · intro dim sizes hne hchain
    rw [Slicer.sliceAxisGo_eq_segsOfBounds dim sizes 0 hchain]
    have hlast := Slicer.axisBounds_getLast dim sizes 0 hne
    cases sizes with
    | nil => exact absurd rfl hne
    | cons s rest =>
        cases rest with
        | nil =>
            simp only [Slicer.axisBounds, Slicer.segsOfBounds]
            simp
        | cons s' rest' =>
            simp only [Slicer.axisBounds] at hlast ⊢
            obtain ⟨b, B, hB⟩ := List.exists_cons_of_ne_nil
              (Slicer.axisBounds_ne_nil dim (s' :: rest')
                ((Slicer.jsRound (0 + s) : ℤ) : ℚ) (by simp))
            rw [hB] at hlast ⊢
            rw [Slicer.segsOfBounds_last_edge B (Slicer.jsRound 0) b]
            rw [List.getLast?_cons_cons] at hlast ⊢
            exact hlast
  · norm_num [Slicer.rectsFor, Slicer.performSliceRects, Slicer.buildFractions,
      Slicer.buildStops, Slicer.buildEvenSplits, Slicer.clampValue, Slicer.sliceAxisGo,
      Slicer.jsRound, List.enum]

/-- Witness for C5 at a concrete input: a 10-pixel axis cut into two
5-pixel halves (boundaries `0, 5, 10`) has its final far edge exactly
at 10. -/
theorem last_edge_exact_of_monotone_bounds_witness :
    ((Slicer.sliceAxisGo 10 [5, 5] 0).getLast?).map (fun seg => seg.1 + seg.2) = some 10 :=
  last_edge_exact_of_monotone_bounds.1 10 [5, 5] (by simp)
    (by norm_num [Slicer.axisBounds, Slicer.jsRound, List.chain'_cons, List.chain'_singleton])

/-! ## Breakpoint update invariant machinery (C6) -/

namespace Slicer

theorem updateSplitAux_spec (g : ℚ) :
    ∀ (prev : List ℚ) (index : ℕ) (v lo : ℚ), index < prev.length →
      updateSplitAux g lo prev index v =
        prev.set index (clampValue v
          ((if index = 0 then lo else prev.getD (index - 1) 0) + g)
          ((if index = prev.length - 1 then 1 else prev.getD (index + 1) 0) - g)) := by
  intro prev
  induction prev with
  | nil => intro index v lo h; exact absurd h (by simp)
  | cons s rest ih =>
      intro index v lo h
      cases index with
      | zero =>
          cases rest with
          | nil => simp [updateSplitAux]
          | cons s' rest' => simp [updateSplitAux]
      | succ j =>
          have hj : j < rest.length := by simpa using h
          cases rest with
          | nil => exact absurd hj (by simp)
          | cons s' rest' =>
              rw [show updateSplitAux g lo (s :: s' :: rest') (j + 1) v =
                  s :: updateSplitAux g s (s' :: rest') j v from rfl]
              rw [ih j v s hj]
              rw [List.set_cons_succ]
              have hlow : ((if j + 1 = 0 then lo else (s :: s' :: rest').getD (j + 1 - 1) 0) : ℚ) =
                  (if j = 0 then s else (s' :: rest').getD (j - 1) 0) := by
                rw [if_neg (Nat.succ_ne_zero j)]
                cases j with
                | zero => simp
                | succ k => simp
              have hup : ((if j + 1 = (s :: s' :: rest').length - 1 then (1 : ℚ)
                    else (s :: s' :: rest').getD (j + 1 + 1) 0)) =
                  (if j = (s' :: rest').length - 1 then 1 else (s' :: rest').getD (j + 1) 0) := by
                have hiff : (j + 1 = (s :: s' :: rest').length - 1) ↔
                    (j = (s' :: rest').length - 1) := by
                  simp only [List.length_cons]
                  omega
                by_cases hl : j = (s' :: rest').length - 1
                · rw [if_pos hl, if_pos (hiff.mpr hl)]
                · rw [if_neg hl, if_neg (fun hh => hl (hiff.mp hh))]
                  simp
              rw [hlow, hup]

theorem updateSplit_eq_aux (count : ℚ) (prev : List ℚ) (index : ℕ) (v : ℚ)
    (h : index < prev.length) :
    updateSplit count index v prev = updateSplitAux (getMinGap count) 0 prev index v := by
  rw [updateSplitAux_spec (getMinGap count) prev index v 0 h]
  unfold updateSplit
  rw [if_neg (by omega)]

theorem updateSplitAux_length (g : ℚ) :
    ∀ (l : List ℚ) (lo : ℚ) (i : ℕ) (v : ℚ), (updateSplitAux g lo l i v).length = l.length := by
  intro l
  induction l with
  | nil => intro lo i v; rfl
  | cons s rest ih =>
      intro lo i v
      cases i with
      | zero => cases rest <;> simp [updateSplitAux]
      | succ j => simp [updateSplitAux, ih]

theorem updateSplitAux_preserves (g : ℚ) :
    ∀ (l : List ℚ) (lo : ℚ) (i : ℕ) (v : ℚ),
      gapsFrom g lo l → gapsFrom g lo (updateSplitAux g lo l i v) := by
  intro l
  induction l with
  | nil => intro lo i v h; exact h
  | cons s rest ih =>
      intro lo i v h
      rcases h with ⟨hs, hrest⟩
      cases i with
      | zero =>
          cases rest with
          | nil =>
              have h1 : s + g ≤ 1 := hrest
              refine ⟨?_, ?_⟩
              · exact le_min (le_max_right _ _) (by linarith)
              · show clampValue v (lo + g) (1 - g) + g ≤ 1
                have := min_le_right (max v (lo + g)) (1 - g)
                unfold clampValue
                linarith
          | cons s' rest' =>
              rcases hrest with ⟨hs', hrest'⟩
              refine ⟨?_, ?_, hrest'⟩
              · exact le_min (le_max_right _ _) (by linarith)
              · show clampValue v (lo + g) (s' - g) + g ≤ s'
                have := min_le_right (max v (lo + g)) (s' - g)
                unfold clampValue
                linarith
      | succ j =>
          cases rest with
          | nil =>
              show gapsFrom g lo [s]
              exact ⟨hs, hrest⟩
          | cons s' rest' =>
              show gapsFrom g lo (s :: updateSplitAux g s (s' :: rest') j v)
              exact ⟨hs, ih s j v hrest⟩

theorem gapsFrom_le_one (g : ℚ) (hg : 0 ≤ g) :
    ∀ (l : List ℚ) (lo : ℚ), gapsFrom g lo l → lo + g ≤ 1 := by
  intro l
  induction l with
  | nil => intro lo h; exact h
  | cons s rest ih =>
      intro lo h
      have h1 := ih s h.2
      have h2 := h.1
      linarith

theorem gapsFrom_strict (g : ℚ) (hg : 0 < g) :
    ∀ (l : List ℚ) (lo : ℚ), gapsFrom g lo l →
      List.Chain' (· < ·) l ∧ ∀ x ∈ l, lo < x ∧ x < 1 := by
  intro l
  induction l with
  | nil => intro lo _; exact ⟨List.chain'_nil, by simp⟩
  | cons s rest ih =>
      intro lo h
      rcases h with ⟨hs, hrest⟩
      rcases ih s hrest with ⟨hchain, hmem⟩
      have hs1 : s + g ≤ 1 := gapsFrom_le_one g (le_of_lt hg) rest s hrest
      constructor
      · rw [List.chain'_cons']
        refine ⟨?_, hchain⟩
        intro y hy
        have hy' : y ∈ rest := List.mem_of_mem_head? hy
        exact (hmem y hy').1
      · intro x hx
        rcases List.mem_cons.mp hx with rfl | hx'
        · exact ⟨by linarith, by linarith⟩
        · rcases hmem x hx' with ⟨h1, h2⟩
          exact ⟨by linarith, h2⟩

theorem getMinGap_pos (c : ℚ) : 0 < getMinGap c := by
  unfold getMinGap
  refine lt_min (by norm_num) (div_pos (by norm_num) ?_)
  exact lt_of_lt_of_le zero_lt_one (le_max_right c 1)

theorem getMinGap_le (n : ℕ) (hn : 2 ≤ n) : getMinGap n ≤ 1 / (n : ℚ) := by
  unfold getMinGap
  have hn0 : (0 : ℚ) < (n : ℚ) := by positivity
  have hmax : max (n : ℚ) 1 = (n : ℚ) := max_eq_left (by exact_mod_cast Nat.one_le_of_lt hn)
  rw [hmax]
  refine le_trans (min_le_right _ _) ?_
  rw [div_le_div_iff₀ hn0 hn0]
  nlinarith

theorem even_gaps_aux (n : ℕ) (hn : 0 < n) (g : ℚ) (hg : g ≤ 1 / (n : ℚ)) :
    ∀ (m k : ℕ), k + m ≤ n - 1 →
      gapsFrom g ((k : ℚ) / n)
        ((List.range m).map (fun i : ℕ => (((k + i : ℕ) : ℚ) + 1) / n)) := by
  have hn0 : (0 : ℚ) < (n : ℚ) := by positivity
  intro m
  induction m with
  | zero =>
      intro k hk
      show (k : ℚ) / n + g ≤ 1
      have h1 : (k : ℚ) / n + g ≤ (k : ℚ) / n + 1 / n := by linarith
      have h2 : (k : ℚ) / n + 1 / n = ((k : ℚ) + 1) / n := by ring
      have h3 : ((k : ℚ) + 1) / n ≤ 1 := by
        rw [div_le_one hn0]
        have hk1 : k + 1 ≤ n := by omega
        exact_mod_cast hk1
      linarith
  | succ m ih =>
      intro k hk
      rw [List.range_succ_eq_map, List.map_cons, List.map_map]
      have hhead : (((k + 0 : ℕ) : ℚ) + 1) / n = ((k : ℚ) + 1) / n := by
        push_cast
        ring
      refine ⟨?_, ?_⟩
      · show (k : ℚ) / n + g ≤ (((k + 0 : ℕ) : ℚ) + 1) / n
        rw [hhead]
        have h2 : (k : ℚ) / n + 1 / n = ((k : ℚ) + 1) / n := by ring
        linarith
      · rw [hhead]
        have hmap : (List.range m).map
              ((fun i : ℕ => (((k + i : ℕ) : ℚ) + 1) / n) ∘ Nat.succ) =
            (List.range m).map (fun i : ℕ => (((k + 1 + i : ℕ) : ℚ) + 1) / n) := by
          apply List.map_congr_left
          intro i _
          simp only [Function.comp]
          push_cast
          ring
        rw [hmap]
        have hcast : ((k : ℚ) + 1) / n = (((k + 1 : ℕ) : ℚ)) / n := by
          push_cast
          ring
        rw [hcast]
        exact ih (k + 1) (by omega)

theorem buildEvenSplits_gaps (n : ℕ) (hn : 2 ≤ n) :
    gapsFrom (getMinGap n) 0 (buildEvenSplits n) := by
  have hfloor : (⌊(n : ℚ) - 1⌋ : ℤ).toNat = n - 1 := by
    have h1 : ((n : ℚ) - 1) = (((n : ℤ) - 1 : ℤ) : ℚ) := by push_cast; ring
    rw [h1, Int.floor_intCast]
    omega
  have hsplit : buildEvenSplits n =
      (List.range (n - 1)).map (fun i : ℕ => (((0 + i : ℕ) : ℚ) + 1) / n) := by
    unfold buildEvenSplits
    rw [if_neg (by
      intro hle
      have h2 : (n : ℚ) ≥ 2 := by exact_mod_cast hn
      linarith)]
    rw [hfloor]
    apply List.map_congr_left
    intro i _
    push_cast
    ring
  rw [hsplit]
  have h0 : ((0 : ℕ) : ℚ) / n = 0 := by simp
  have h := even_gaps_aux n (by omega) (getMinGap n) (getMinGap_le n hn) (n - 1) 0 (by omega)
  rwa [h0] at h

theorem fold_preserves (n : ℕ) :
    ∀ (updates : List (ℕ × ℚ)) (acc : List ℚ),
      (∀ u ∈ updates, u.1 < n - 1) →
      gapsFrom (getMinGap n) 0 acc → acc.length = n - 1 →
      gapsFrom (getMinGap n) 0
        (updates.foldl (fun acc u => updateSplit n u.1 u.2 acc) acc) ∧
      (updates.foldl (fun acc u => updateSplit n u.1 u.2 acc) acc).length = n - 1 := by
  intro updates
  induction updates with
  | nil => intro acc _ hgap hlen; exact ⟨hgap, hlen⟩
  | cons u rest ih =>
      intro acc hu hgap hlen
      have hu1 : u.1 < acc.length := by
        rw [hlen]
        exact hu u (List.mem_cons_self u rest)
      rw [List.foldl_cons]
      have heq := updateSplit_eq_aux n acc u.1 u.2 hu1
      refine ih (updateSplit n u.1 u.2 acc) (fun w hw => hu w (List.mem_cons_of_mem u hw)) ?_ ?_
      · rw [heq]
        exact updateSplitAux_preserves (getMinGap n) acc 0 u.1 u.2 hgap
      · rw [heq, updateSplitAux_length]
        exact hlen

end Slicer

/-! ## Claim theorems: breakpoint ordering invariant (C6) -/

/-- C6: starting from the even-default breakpoints of an axis count
`n ∈ [2, 8]`, after any finite sequence of breakpoint updates
(`updateRowSplit` / `updateColSplit`, both embedded as `updateSplit`)
with arbitrary raw values — out-of-range and reversed values included —
the stored breakpoints remain strictly increasing and strictly within
`(0, 1)`, because each update clamps the raw value into
`[previous + minGap, next − minGap]` with the array ends defaulting to
0 and 1 and `minGap = min(0.05, 0.6/n)`. -/
theorem breakpoint_updates_keep_invariant (n : ℕ) (updates : List (ℕ × ℚ))
    (hn2 : 2 ≤ n) (hn8 : n ≤ 8) (hidx : ∀ u ∈ updates, u.1 < n - 1) :
    List.Chain' (· < ·)
      (updates.foldl (fun acc u => Slicer.updateSplit n u.1 u.2 acc)
        (Slicer.buildEvenSplits n)) ∧
    ∀ x ∈ updates.foldl (fun acc u => Slicer.updateSplit n u.1 u.2 acc)
        (Slicer.buildEvenSplits n),
      0 < x ∧ x < 1 := by
  have hlen : (Slicer.buildEvenSplits (n : ℚ)).length = n - 1 := by
    rw [buildEvenSplits_length (n : ℚ) (by exact_mod_cast Nat.one_le_of_lt hn2)]
    have h1 : ((n : ℚ) - 1) = (((n : ℤ) - 1 : ℤ) : ℚ) := by push_cast; ring
    rw [h1, Int.floor_intCast]
    omega
  have h := Slicer.fold_preserves n updates (Slicer.buildEvenSplits n) hidx
    (Slicer.buildEvenSplits_gaps n hn2) hlen
  exact Slicer.gapsFrom_strict (Slicer.getMinGap n) (Slicer.getMinGap_pos n) _ 0 h.1

/-- Witness for C6 at a concrete input: a 3-row axis hit with the
out-of-range update `99` at index 0 and the reversed update `−5` at
index 1 still has strictly increasing breakpoints inside `(0, 1)`. -/
theorem breakpoint_updates_keep_invariant_witness :
    List.Chain' (· < ·)
      ([((0 : ℕ), (99 : ℚ)), (1, -5)].foldl
        (fun acc u => Slicer.updateSplit 3 u.1 u.2 acc) (Slicer.buildEvenSplits 3)) ∧
    ∀ x ∈ [((0 : ℕ), (99 : ℚ)), (1, -5)].foldl
        (fun acc u => Slicer.updateSplit 3 u.1 u.2 acc) (Slicer.buildEvenSplits 3),
      0 < x ∧ x < 1 := by
  have h := breakpoint_updates_keep_invariant 3 [((0 : ℕ), (99 : ℚ)), (1, -5)]
    (by norm_num) (by norm_num) (by decide)
  exact_mod_cast h

/-! ## ZIP byte-layout machinery (C3, C7, C9) -/

namespace Zip

-- length lemmas
theorem localHeaderBytes_length (t d crc size nl : ℕ) :
    (localHeaderBytes t d crc size nl).length = 30 := rfl

theorem centralHeaderBytes_length (t d crc size nl off : ℕ) :
    (centralHeaderBytes t d crc size nl off).length = 46 := rfl

theorem eocdBytes_length (c z o : ℕ) : (eocdBytes c z o).length = 22 := rfl

-- read helpers
theorem readU32le_append_right (a l : List Nat) (pos : ℕ) (h : a.length ≤ pos) :
    readU32le (a ++ l) pos = readU32le l (pos - a.length) := by
  unfold readU32le
  rw [List.getD_append_right _ _ _ _ h, List.getD_append_right _ _ _ _ (by omega),
      List.getD_append_right _ _ _ _ (by omega), List.getD_append_right _ _ _ _ (by omega)]
  have h1 : pos + 1 - a.length = pos - a.length + 1 := by omega
  have h2 : pos + 2 - a.length = pos - a.length + 2 := by omega
  have h3 : pos + 3 - a.length = pos - a.length + 3 := by omega
  rw [h1, h2, h3]

theorem readU16le_append_right (a l : List Nat) (pos : ℕ) (h : a.length ≤ pos) :
    readU16le (a ++ l) pos = readU16le l (pos - a.length) := by
  unfold readU16le
  rw [List.getD_append_right _ _ _ _ h, List.getD_append_right _ _ _ _ (by omega)]
  have h1 : pos + 1 - a.length = pos - a.length + 1 := by omega
  rw [h1]

theorem readU32le_skip_u16 (v : ℕ) (l : List Nat) (n : ℕ) :
    readU32le (u16le v ++ l) (n + 2) = readU32le l n := by
  simp [readU32le, u16le, List.getD_cons_succ, show ∀ k, n + 2 + k = (n + k) + 2 from by omega]

theorem readU32le_skip_u32 (v : ℕ) (l : List Nat) (n : ℕ) :
    readU32le (u32le v ++ l) (n + 4) = readU32le l n := by
  simp [readU32le, u32le, List.getD_cons_succ, show ∀ k, n + 4 + k = (n + k) + 4 from by omega]

theorem readU16le_skip_u16 (v : ℕ) (l : List Nat) (n : ℕ) :
    readU16le (u16le v ++ l) (n + 2) = readU16le l n := by
  simp [readU16le, u16le, List.getD_cons_succ, show n + 2 + 1 = (n + 1) + 2 from by omega]

theorem readU16le_skip_u32 (v : ℕ) (l : List Nat) (n : ℕ) :
    readU16le (u32le v ++ l) (n + 4) = readU16le l n := by
  simp [readU16le, u32le, List.getD_cons_succ, show n + 4 + 1 = (n + 1) + 4 from by omega]

theorem readU32le_u32le (v : ℕ) (l : List Nat) :
    readU32le (u32le v ++ l) 0 = v % 4294967296 := by
  show v % 256 + 256 * (v / 256 % 256) + 65536 * (v / 65536 % 256) +
      16777216 * (v / 16777216 % 256) = v % 4294967296
  omega

theorem readU16le_u16le (v : ℕ) (l : List Nat) :
    readU16le (u16le v ++ l) 0 = v % 65536 := by
  show v % 256 + 256 * (v / 256 % 256) = v % 65536
  omega

theorem central_offset_field (t d crc size nl off : ℕ) (X : List Nat) :
    readU32le (centralHeaderBytes t d crc size nl off ++ X) 42 = off % 4294967296 := by
  unfold centralHeaderBytes
  simp only [List.append_assoc]
  rw [show (42 : ℕ) = 38 + 4 from rfl, readU32le_skip_u32]
  rw [show (38 : ℕ) = 36 + 2 from rfl, readU32le_skip_u16]
  rw [show (36 : ℕ) = 34 + 2 from rfl, readU32le_skip_u16]
  rw [show (34 : ℕ) = 32 + 2 from rfl, readU32le_skip_u16]
  rw [show (32 : ℕ) = 30 + 2 from rfl, readU32le_skip_u16]
  rw [show (30 : ℕ) = 28 + 2 from rfl, readU32le_skip_u16]
  rw [show (28 : ℕ) = 26 + 2 from rfl, readU32le_skip_u16]
  rw [show (26 : ℕ) = 22 + 4 from rfl, readU32le_skip_u32]
  rw [show (22 : ℕ) = 18 + 4 from rfl, readU32le_skip_u32]
  rw [show (18 : ℕ) = 14 + 4 from rfl, readU32le_skip_u32]
  rw [show (14 : ℕ) = 12 + 2 from rfl, readU32le_skip_u16]
  rw [show (12 : ℕ) = 10 + 2 from rfl, readU32le_skip_u16]
  rw [show (10 : ℕ) = 8 + 2 from rfl, readU32le_skip_u16]
  rw [show (8 : ℕ) = 6 + 2 from rfl, readU32le_skip_u16]
  rw [show (6 : ℕ) = 4 + 2 from rfl, readU32le_skip_u16]
  rw [show (4 : ℕ) = 0 + 4 from rfl, readU32le_skip_u32]
  exact readU32le_u32le off X

-- take / start bookkeeping
theorem localEntryStart_zero (files : List ZipFileEntry) : localEntryStart files 0 = 0 := rfl

theorem localEntryStart_succ (f : ZipFileEntry) (rest : List ZipFileEntry) (i : ℕ) :
    localEntryStart (f :: rest) (i + 1) =
      (30 + f.name.length + f.data.length) + localEntryStart rest i := by
  unfold localEntryStart
  rw [List.take_succ_cons, List.map_cons, List.sum_cons]

theorem centralRecordStart_zero (files : List ZipFileEntry) : centralRecordStart files 0 = 0 := rfl

theorem centralRecordStart_succ (f : ZipFileEntry) (rest : List ZipFileEntry) (i : ℕ) :
    centralRecordStart (f :: rest) (i + 1) =
      (46 + f.name.length) + centralRecordStart rest i := by
  unfold centralRecordStart
  rw [List.take_succ_cons, List.map_cons, List.sum_cons]

-- loop structure lemmas
theorem buildZipLoop_parts_length (t d : ℕ) :
    ∀ (files : List ZipFileEntry) (off : ℕ),
      (buildZipLoop t d files off).1.length = localEntryStart files files.length := by
  intro files
  induction files with
  | nil => intro off; rfl
  | cons f rest ih =>
      intro off
      show (localHeaderBytes t d (crc32 f.data) f.data.length f.name.length ++ f.name ++
          f.data ++ (buildZipLoop t d rest _).1).length = _
      rw [show (f :: rest).length = rest.length + 1 from rfl, localEntryStart_succ]
      simp only [List.length_append, localHeaderBytes_length, ih]

theorem buildZipLoop_centrals_length (t d : ℕ) :
    ∀ (files : List ZipFileEntry) (off : ℕ),
      (buildZipLoop t d files off).2.1.length = centralRecordStart files files.length := by
  intro files
  induction files with
  | nil => intro off; rfl
  | cons f rest ih =>
      intro off
      show (centralHeaderBytes t d (crc32 f.data) f.data.length f.name.length off ++ f.name ++
          (buildZipLoop t d rest _).2.1).length = _
      rw [show (f :: rest).length = rest.length + 1 from rfl, centralRecordStart_succ]
      simp only [List.length_append, centralHeaderBytes_length, ih]

theorem buildZipLoop_offset (t d : ℕ) :
    ∀ (files : List ZipFileEntry) (off : ℕ),
      (buildZipLoop t d files off).2.2 = off + localEntryStart files files.length := by
  intro files
  induction files with
  | nil => intro off; rfl
  | cons f rest ih =>
      intro off
      show (buildZipLoop t d rest
          (off + (localHeaderBytes t d (crc32 f.data) f.data.length f.name.length).length +
            f.name.length + f.data.length)).2.2 = _
      rw [ih, show (f :: rest).length = rest.length + 1 from rfl, localEntryStart_succ,
        localHeaderBytes_length]
      omega

-- the offset recorded in each central record (C3 core)
theorem central_record_offset (t d : ℕ) :
    ∀ (files : List ZipFileEntry) (off : ℕ) (i : ℕ) (junk : List Nat), i < files.length →
      readU32le ((buildZipLoop t d files off).2.1 ++ junk) (centralRecordStart files i + 42) =
        (off + localEntryStart files i) % 4294967296 := by
  intro files
  induction files with
  | nil => intro off i junk h; exact absurd h (by simp)
  | cons f rest ih =>
      intro off i junk h
      show readU32le ((centralHeaderBytes t d (crc32 f.data) f.data.length f.name.length off ++
          f.name ++ (buildZipLoop t d rest _).2.1) ++ junk) _ = _
      cases i with
      | zero =>
          rw [centralRecordStart_zero, localEntryStart_zero, Nat.zero_add]
          rw [List.append_assoc, List.append_assoc]
          exact central_offset_field t d (crc32 f.data) f.data.length f.name.length off _
      | succ j =>
          have hj : j < rest.length := by simpa using h
          rw [centralRecordStart_succ, localEntryStart_succ]
          rw [List.append_assoc, List.append_assoc]
          rw [readU32le_append_right _ _ _
            (by rw [centralHeaderBytes_length]; omega)]
          rw [centralHeaderBytes_length]
          rw [readU32le_append_right _ _ _ (by omega)]
          have hpos : 46 + f.name.length + centralRecordStart rest j + 42 - 46 - f.name.length =
              centralRecordStart rest j + 42 := by omega
          rw [hpos]
          have := ih (off + 30 + f.name.length + f.data.length) j junk hj
          rw [show (buildZipLoop t d rest (off + 30 + f.name.length + f.data.length)).2.1 =
              (buildZipLoop t d rest
                (off + (localHeaderBytes t d (crc32 f.data) f.data.length f.name.length).length +
                  f.name.length + f.data.length)).2.1 from by rw [localHeaderBytes_length]] at this
          rw [this]
          congr 1
          omega



theorem buildZipLoop_parts_eq (t d : ℕ) :
    ∀ (files : List ZipFileEntry) (off : ℕ),
      (buildZipLoop t d files off).1 = localRegion t d files := by
  intro files
  induction files with
  | nil => intro off; rfl
  | cons f rest ih =>
      intro off
      show localHeaderBytes t d (crc32 f.data) f.data.length f.name.length ++ f.name ++
          f.data ++ (buildZipLoop t d rest _).1 = _
      rw [ih]
      simp [localRegion, List.append_assoc]

theorem buildZipLoop_centrals_eq (t d : ℕ) :
    ∀ (files : List ZipFileEntry) (off : ℕ),
      (buildZipLoop t d files off).2.1 =
        ((List.range files.length).map (fun i =>
          centralHeaderBytes t d (crc32 (files.getD i default).data)
            (files.getD i default).data.length (files.getD i default).name.length
            (off + localEntryStart files i) ++ (files.getD i default).name)).flatten := by
  intro files
  induction files with
  | nil => intro off; rfl
  | cons f rest ih =>
      intro off
      show centralHeaderBytes t d (crc32 f.data) f.data.length f.name.length off ++ f.name ++
          (buildZipLoop t d rest
            (off + (localHeaderBytes t d (crc32 f.data) f.data.length f.name.length).length +
              f.name.length + f.data.length)).2.1 = _
      rw [ih, localHeaderBytes_length]
      rw [show (f :: rest).length = rest.length + 1 from rfl, List.range_succ_eq_map]
      rw [List.map_cons, List.flatten_cons, List.map_map]
      have hhead : centralHeaderBytes t d (crc32 ((f :: rest).getD 0 default).data)
          ((f :: rest).getD 0 default).data.length ((f :: rest).getD 0 default).name.length
          (off + localEntryStart (f :: rest) 0) ++ ((f :: rest).getD 0 default).name =
          centralHeaderBytes t d (crc32 f.data) f.data.length f.name.length off ++ f.name := by
        rw [localEntryStart_zero]
        rfl
      rw [hhead]
      apply congrArg
      apply congrArg
      apply List.map_congr_left
      intro i _
      simp only [Function.comp]
      rw [show (f :: rest).getD (Nat.succ i) default = rest.getD i default from rfl]
      rw [localEntryStart_succ f rest i]
      rw [show off + ((30 + f.name.length + f.data.length) + localEntryStart rest i) =
          off + 30 + f.name.length + f.data.length + localEntryStart rest i from by omega]

theorem centralRegion_eq_loop (t d : ℕ) (files : List ZipFileEntry) :
    centralRegion t d files = (buildZipLoop t d files 0).2.1 := by
  rw [buildZipLoop_centrals_eq]
  unfold centralRegion
  apply congrArg List.flatten
  apply List.map_congr_left
  intro i _
  rw [Nat.zero_add]

theorem localRegion_length (t d : ℕ) (files : List ZipFileEntry) :
    (localRegion t d files).length = localEntryStart files files.length := by
  rw [← buildZipLoop_parts_eq t d files 0]
  exact buildZipLoop_parts_length t d files 0

theorem centralRegion_length (t d : ℕ) (files : List ZipFileEntry) :
    (centralRegion t d files).length = centralRecordStart files files.length := by
  rw [centralRegion_eq_loop]
  exact buildZipLoop_centrals_length t d files 0

theorem readU16le_u16le_self (v : ℕ) : readU16le (u16le v) 0 = v % 65536 := by
  show v % 256 + 256 * (v / 256 % 256) = v % 65536
  omega

theorem eocd_fields (c z o : ℕ) :
    readU32le (eocdBytes c z o) 0 = 0x06054b50 ∧
    readU16le (eocdBytes c z o) 4 = 0 ∧
    readU16le (eocdBytes c z o) 6 = 0 ∧
    readU16le (eocdBytes c z o) 8 = c % 65536 ∧
    readU16le (eocdBytes c z o) 10 = c % 65536 ∧
    readU32le (eocdBytes c z o) 12 = z % 4294967296 ∧
    readU32le (eocdBytes c z o) 16 = o % 4294967296 ∧
    readU16le (eocdBytes c z o) 20 = 0 := by
  unfold eocdBytes
  simp only [List.append_assoc]
  refine ⟨?_, ?_, ?_, ?_, ?_, ?_, ?_, ?_⟩
  · rw [readU32le_u32le]
  · rw [show (4 : ℕ) = 0 + 4 from rfl, readU16le_skip_u32, readU16le_u16le]
  · rw [show (6 : ℕ) = 2 + 4 from rfl, readU16le_skip_u32,
      show (2 : ℕ) = 0 + 2 from rfl, readU16le_skip_u16, readU16le_u16le]
  · rw [show (8 : ℕ) = 4 + 4 from rfl, readU16le_skip_u32,
      show (4 : ℕ) = 2 + 2 from rfl, readU16le_skip_u16,
      show (2 : ℕ) = 0 + 2 from rfl, readU16le_skip_u16, readU16le_u16le]
  · rw [show (10 : ℕ) = 6 + 4 from rfl, readU16le_skip_u32,
      show (6 : ℕ) = 4 + 2 from rfl, readU16le_skip_u16,
      show (4 : ℕ) = 2 + 2 from rfl, readU16le_skip_u16,
      show (2 : ℕ) = 0 + 2 from rfl, readU16le_skip_u16, readU16le_u16le]
  · rw [show (12 : ℕ) = 8 + 4 from rfl, readU32le_skip_u32,
      show (8 : ℕ) = 6 + 2 from rfl, readU32le_skip_u16,
      show (6 : ℕ) = 4 + 2 from rfl, readU32le_skip_u16,
      show (4 : ℕ) = 2 + 2 from rfl, readU32le_skip_u16,
      show (2 : ℕ) = 0 + 2 from rfl, readU32le_skip_u16, readU32le_u32le]
  · rw [show (16 : ℕ) = 12 + 4 from rfl, readU32le_skip_u32,
      show (12 : ℕ) = 10 + 2 from rfl, readU32le_skip_u16,
      show (10 : ℕ) = 8 + 2 from rfl, readU32le_skip_u16,
      show (8 : ℕ) = 6 + 2 from rfl, readU32le_skip_u16,
      show (6 : ℕ) = 4 + 2 from rfl, readU32le_skip_u16,
      show (4 : ℕ) = 0 + 4 from rfl, readU32le_skip_u32, readU32le_u32le]
  · rw [show (20 : ℕ) = 16 + 4 from rfl, readU16le_skip_u32,
      show (16 : ℕ) = 14 + 2 from rfl, readU16le_skip_u16,
      show (14 : ℕ) = 12 + 2 from rfl, readU16le_skip_u16,
      show (12 : ℕ) = 10 + 2 from rfl, readU16le_skip_u16,
      show (10 : ℕ) = 8 + 2 from rfl, readU16le_skip_u16,
      show (8 : ℕ) = 4 + 4 from rfl, readU16le_skip_u32,
      show (4 : ℕ) = 0 + 4 from rfl, readU16le_skip_u32, readU16le_u16le_self]



theorem crc32S_valid (data : List Nat) (s : Option (List Nat)) (h : crcCacheValid s) :
    crc32S data s = (crc32 data, some getCrcTable) := by
  cases s with
  | none => rfl
  | some tbl =>
      have htbl : tbl = getCrcTable := h
      subst htbl
      rfl

theorem buildZipLoopS_eq (t d : ℕ) :
    ∀ (files : List ZipFileEntry) (off : ℕ) (s : Option (List Nat)), crcCacheValid s →
      (buildZipLoopS t d files off s).1 = buildZipLoop t d files off ∧
      crcCacheValid (buildZipLoopS t d files off s).2 := by
  intro files
  induction files with
  | nil => intro off s h; exact ⟨rfl, h⟩
  | cons f rest ih =>
      intro off s h
      have hcrc := crc32S_valid f.data s h
      have hrec := ih (off + (localHeaderBytes t d (crc32 f.data) f.data.length
        f.name.length).length + f.name.length + f.data.length) (some getCrcTable) rfl
      simp only [buildZipLoopS, buildZipLoop, hcrc]
      constructor
      · rw [hrec.1]
      · exact hrec.2

end Zip

/-! ## Claim theorems: ZIP offsets (C3), blob layout (C7), purity (C9) -/

/-- C3: for every entry list, the local-header offset recorded at byte
42 of each entry's central-directory header equals the running byte
offset at which that entry's local header begins — the sum of
`30 + nameLength + contentLength` over the preceding entries, tracked
incrementally by the loop — so zero-byte entries are neither skipped
nor misrecorded. -/
theorem central_directory_offsets_track_local_headers :
    ∀ (t d : ℕ) (files : List Zip.ZipFileEntry) (i : ℕ), i < files.length →
      Zip.readU32le (Zip.buildZipBlob t d files)
        (Zip.localEntryStart files files.length + Zip.centralRecordStart files i + 42) =
      Zip.localEntryStart files i % 4294967296 := by
  intro t d files i h
  have hblob : Zip.buildZipBlob t d files = (Zip.buildZipLoop t d files 0).1 ++
      ((Zip.buildZipLoop t d files 0).2.1 ++
        Zip.eocdBytes files.length (Zip.buildZipLoop t d files 0).2.1.length
          (Zip.buildZipLoop t d files 0).2.2) := by
    show (Zip.buildZipLoop t d files 0).1 ++ (Zip.buildZipLoop t d files 0).2.1 ++
        Zip.eocdBytes files.length (Zip.buildZipLoop t d files 0).2.1.length
          (Zip.buildZipLoop t d files 0).2.2 = _
    rw [List.append_assoc]
  rw [hblob]
  rw [Zip.readU32le_append_right _ _ _ (by rw [Zip.buildZipLoop_parts_length]; omega)]
  rw [Zip.buildZipLoop_parts_length]
  rw [show Zip.localEntryStart files files.length + Zip.centralRecordStart files i + 42 -
      Zip.localEntryStart files files.length = Zip.centralRecordStart files i + 42 from by omega]
  have hc := Zip.central_record_offset t d files 0 i
    (Zip.eocdBytes files.length (Zip.buildZipLoop t d files 0).2.1.length
      (Zip.buildZipLoop t d files 0).2.2) h
  rw [Nat.zero_add] at hc
  exact hc

/-- Witness for C3 at the claim's concrete input: three entries with
contents of 10, 0 and 25 bytes and 1-byte names.  The offset recorded
for the second entry is `10 + 30 + 1`, read back from the built
archive. -/
theorem central_directory_offsets_witness :
    (1 < ([⟨[97], [0, 1, 2, 3, 4, 5, 6, 7, 8, 9]⟩, ⟨[98], []⟩,
        ⟨[99], List.replicate 25 7⟩] : List Zip.ZipFileEntry).length) ∧
    Zip.localEntryStart [⟨[97], [0, 1, 2, 3, 4, 5, 6, 7, 8, 9]⟩, ⟨[98], []⟩,
        ⟨[99], List.replicate 25 7⟩] 1 = 10 + 30 + 1 ∧
    Zip.readU32le
      (Zip.buildZipBlob 0 0 [⟨[97], [0, 1, 2, 3, 4, 5, 6, 7, 8, 9]⟩, ⟨[98], []⟩,
        ⟨[99], List.replicate 25 7⟩])
      (Zip.localEntryStart [⟨[97], [0, 1, 2, 3, 4, 5, 6, 7, 8, 9]⟩, ⟨[98], []⟩,
          ⟨[99], List.replicate 25 7⟩] 3 +
        Zip.centralRecordStart [⟨[97], [0, 1, 2, 3, 4, 5, 6, 7, 8, 9]⟩, ⟨[98], []⟩,
          ⟨[99], List.replicate 25 7⟩] 1 + 42) =
      Zip.localEntryStart [⟨[97], [0, 1, 2, 3, 4, 5, 6, 7, 8, 9]⟩, ⟨[98], []⟩,
        ⟨[99], List.replicate 25 7⟩] 1 % 4294967296 :=
  ⟨by decide, by decide,
   central_directory_offsets_track_local_headers 0 0
     [⟨[97], [0, 1, 2, 3, 4, 5, 6, 7, 8, 9]⟩, ⟨[98], []⟩, ⟨[99], List.replicate 25 7⟩] 1
     (by decide)⟩

/-- C7: the produced archive is exactly
`[local entries, in input order] ++ [central records, same order] ++
[22-byte EOCD]`, and the EOCD record carries the signature
`0x06054b50`, disk numbers 0, both entry counts, the byte size of the
central region, the byte offset of the start of the central directory
(the total size of the local region), and comment length 0. -/
theorem zip_blob_layout :
    (∀ (t d : ℕ) (files : List Zip.ZipFileEntry),
        Zip.buildZipBlob t d files =
          Zip.localRegion t d files ++ Zip.centralRegion t d files ++
            Zip.eocdBytes files.length (Zip.centralRegion t d files).length
              (Zip.localRegion t d files).length ∧
        (Zip.localRegion t d files).length = Zip.localEntryStart files files.length ∧
        (Zip.centralRegion t d files).length = Zip.centralRecordStart files files.length ∧
        (Zip.eocdBytes files.length (Zip.centralRegion t d files).length
          (Zip.localRegion t d files).length).length = 22) ∧
    ∀ c z o : ℕ,
      Zip.readU32le (Zip.eocdBytes c z o) 0 = 0x06054b50 ∧
      Zip.readU16le (Zip.eocdBytes c z o) 4 = 0 ∧
      Zip.readU16le (Zip.eocdBytes c z o) 6 = 0 ∧
      Zip.readU16le (Zip.eocdBytes c z o) 8 = c % 65536 ∧
      Zip.readU16le (Zip.eocdBytes c z o) 10 = c % 65536 ∧
      Zip.readU32le (Zip.eocdBytes c z o) 12 = z % 4294967296 ∧
      Zip.readU32le (Zip.eocdBytes c z o) 16 = o % 4294967296 ∧
      Zip.readU16le (Zip.eocdBytes c z o) 20 = 0 := by
  constructor
  · intro t d files
    refine ⟨?_, Zip.localRegion_length t d files, Zip.centralRegion_length t d files,
      Zip.eocdBytes_length _ _ _⟩
    show (Zip.buildZipLoop t d files 0).1 ++ (Zip.buildZipLoop t d files 0).2.1 ++
        Zip.eocdBytes files.length (Zip.buildZipLoop t d files 0).2.1.length
          (Zip.buildZipLoop t d files 0).2.2 = _
    rw [← Zip.centralRegion_eq_loop, Zip.buildZipLoop_parts_eq, Zip.buildZipLoop_offset,
      Nat.zero_add, ← Zip.localRegion_length t d files]
  · intro c z o
    exact Zip.eocd_fields c z o

/-- C9 (amended): `buildZipBlob` is a pure function of the entry list
and the capture timestamp.  With the module-level CRC-table cache
modelled as explicit state, any invocation from a valid cache state
(`null` or the memoized table) produces exactly the bytes of the pure
function and leaves the cache valid — so concurrent or repeated
exports with the same entries and the same `toDosDate(new Date())`
fields are byte-identical, the memoized read-only CRC table being
harmless. -/
theorem zip_blob_pure_up_to_timestamp :
    ∀ (t d : ℕ) (files : List Zip.ZipFileEntry) (s : Option (List ℕ)),
      Zip.crcCacheValid s →
      (Zip.buildZipBlobS t d files s).1 = Zip.buildZipBlob t d files ∧
      Zip.crcCacheValid (Zip.buildZipBlobS t d files s).2 := by
  intro t d files s h
  have hrec := Zip.buildZipLoopS_eq t d files 0 s h
  simp only [Zip.buildZipBlobS, Zip.buildZipBlob]
  constructor
  · rw [hrec.1]
  · exact hrec.2

/-- Witness for C9's amended statement: exporting the single entry
`a` from the empty cache yields the pure function's bytes and leaves a
valid cache. -/
theorem zip_blob_pure_up_to_timestamp_witness :
    (Zip.buildZipBlobS 0 0 [⟨[97], []⟩] none).1 = Zip.buildZipBlob 0 0 [⟨[97], []⟩] ∧
    Zip.crcCacheValid (Zip.buildZipBlobS 0 0 [⟨[97], []⟩] none).2 :=
  zip_blob_pure_up_to_timestamp 0 0 [⟨[97], []⟩] none trivial

/-- Counterexample to C9 as stated: two invocations of `buildZipBlob`
on the same entry list are not byte-identical when the ambient
`new Date()` differs — here midnight versus 1 a.m. of the same day —
because the DOS time field of every header changes. -/
theorem zip_blob_differs_across_times :
    Zip.buildZipBlob (Zip.toDosDate ⟨2024, 0, 1, 0, 0, 0⟩).1
        (Zip.toDosDate ⟨2024, 0, 1, 0, 0, 0⟩).2 [⟨[97], []⟩] ≠
      Zip.buildZipBlob (Zip.toDosDate ⟨2024, 0, 1, 1, 0, 0⟩).1
        (Zip.toDosDate ⟨2024, 0, 1, 1, 0, 0⟩).2 [⟨[97], []⟩] := by
  decide
